import Mathlib

/-!
# The KEM scheme register (package `schemes` of the vendored circl library)

A shallow embedding of `src/vendor/github.com/cloudflare/circl/kem/schemes/schemes.go`:
the package-level array `allSchemes`, the package-level map `allSchemeNames`, the
package initializer `init`, and the two exported queries `ByName` and `All`.

Go strings are byte sequences (not necessarily valid UTF-8); they are embedded as lists
of bytes.  Go maps are embedded as key-unique association lists.  A `kem.Scheme`
interface value is embedded as `Option kem.Scheme`, with `none` for `nil`.
-/

/-- A Go byte (`uint8`). -/
abbrev GoByte := Fin 256

/-- A Go `string`: an immutable sequence of bytes. -/
abbrev GoString := List GoByte

/-- The bytes of a string literal (UTF-8, as the Go compiler stores literals). -/
def lit (s : String) : GoString :=
  s.toList.flatMap (fun c => (String.utf8EncodeChar c).map (fun b => b.val))

/-! ## Go maps with string keys -/

/-- A Go `map[string]V`: each key occurs at most once. -/
abbrev GoMap (V : Type) := List (GoString × V)

namespace GoMap

/-- The expression `make(map[string]V)`: the empty map. -/
def make {V : Type} : GoMap V := []

/-- The index expression `m[k]`; `none` is the zero value returned for an absent key
(`nil` for an interface type).  Reading never inserts. -/
def get {V : Type} : GoMap V → GoString → Option V
  | [], _ => none
  | (k', v) :: rest, k => if k' = k then some v else get rest k

/-- The assignment `m[k] = v`: replaces the value of an existing key, adds the key
otherwise. -/
def set {V : Type} : GoMap V → GoString → V → GoMap V
  | [], k, v => [(k, v)]
  | (k', v') :: rest, k, v => if k' = k then (k, v) :: rest else (k', v') :: set rest k v

/-- The keys of the map. -/
def keys {V : Type} (m : GoMap V) : List GoString := m.map Prod.fst

/-- The builtin `len(m)`: the number of keys. -/
def len {V : Type} (m : GoMap V) : Nat := m.length

end GoMap

/-! ## Package `strings` -/

namespace strings

/-- The test `'A' <= c && c <= 'Z'`. -/
def isUpperByte (c : GoByte) : Bool := decide (65 ≤ c.val ∧ c.val ≤ 90)

/-- The test `'a' <= c && c <= 'z'`. -/
def isLowerByte (c : GoByte) : Bool := decide (97 ≤ c.val ∧ c.val ≤ 122)

/-- The test `c < utf8.RuneSelf` on every byte: the string is pure ASCII. -/
def isASCII (s : GoString) : Bool := s.all (fun c => decide (c.val < 128))

/-- One byte of the ASCII branch of `ToLower`: `c += 'a' - 'A'` on an upper-case byte
(byte arithmetic, modulo 256). -/
def lowerByte (c : GoByte) : GoByte := if isUpperByte c then c + 32 else c

/-- One byte of the ASCII branch of `ToUpper`: `c -= 'a' - 'A'` on a lower-case byte. -/
def upperByte (c : GoByte) : GoByte := if isLowerByte c then c - 32 else c

/-- The ASCII branch of `ToLower`: every upper-case byte replaced, the rest copied. -/
def lowerASCII (s : GoString) : GoString := s.map lowerByte

/-- The ASCII branch of `ToUpper`: every lower-case byte replaced, the rest copied. -/
def upperASCII (s : GoString) : GoString := s.map upperByte

/-- Modelled from the spec: `strings.ToLower` is the standard-library function behind the
"lower-cased name" of the spec; package `strings` is not under `src/`.  On a pure-ASCII string
it returns the string itself when it has no upper-case letter and otherwise maps `A`..`Z`
to `a`..`z` byte by byte; on any other string it returns `Map(unicode.ToLower, s)`, which
depends on the Unicode case tables and is taken as the parameter `unicodeLower`. -/
def ToLower (unicodeLower : GoString → GoString) (s : GoString) : GoString :=
  if isASCII s then
    if !(s.any isUpperByte) then s else lowerASCII s
  else unicodeLower s

/-- Modelled from the spec: `strings.ToUpper`, the upper-case counterpart of `ToLower`;
package `strings` is not under `src/`.  The non-ASCII branch `Map(unicode.ToUpper, s)` is
the parameter `unicodeUpper`. -/
def ToUpper (unicodeUpper : GoString → GoString) (s : GoString) : GoString :=
  if isASCII s then
    if !(s.any isLowerByte) then s else upperASCII s
  else unicodeUpper s

end strings

/-! ## Package `kem`: the scheme interface -/

namespace kem

/-- The four byte lengths a scheme reports. -/
structure Sizes where
  publicKey : Nat
  privateKey : Nat
  ciphertext : Nat
  sharedKey : Nat
deriving DecidableEq, Repr

/-- Modelled from the spec: the interface `kem.Scheme` is declared in package `kem`, which
is not under `src/`.  Following sections 3, 4.2 and 9 of the spec, a scheme is an immutable
descriptor with a name and four byte lengths, and it is one of two variants: a
per-algorithm implementation, or the hybrid combinator over a classical scheme `first`
and a post-quantum scheme `second`, whose name and fixed shared-secret length are set when
it is built. -/
inductive Scheme where
  | algorithm (name : GoString) (sizes : Sizes)
  | hybrid (name : GoString) (first second : Scheme) (sharedKey : Nat)
deriving DecidableEq, Repr

namespace Scheme

/-- Modelled from the spec: the method `Name()`, declared in package `kem` and implemented
in the algorithm packages, none of them under `src/`; it returns the name the scheme was
built with. -/
def Name : Scheme → GoString
  | algorithm name _ => name
  | hybrid name _ _ _ => name

/-- Modelled from the spec: the method `PublicKeySize()`, not under `src/`; following
section 4.2 of the spec, for a hybrid the two public keys are concatenated. -/
def PublicKeySize : Scheme → Nat
  | algorithm _ z => z.publicKey
  | hybrid _ a b _ => a.PublicKeySize + b.PublicKeySize

/-- Modelled from the spec: the method `PrivateKeySize()`, not under `src/`; following
section 4.2 of the spec, for a hybrid the two private keys are concatenated. -/
def PrivateKeySize : Scheme → Nat
  | algorithm _ z => z.privateKey
  | hybrid _ a b _ => a.PrivateKeySize + b.PrivateKeySize

/-- Modelled from the spec: the method `CiphertextSize()`, not under `src/`; following
section 4.2 of the spec, for a hybrid the two ciphertexts are concatenated. -/
def CiphertextSize : Scheme → Nat
  | algorithm _ z => z.ciphertext
  | hybrid _ a b _ => a.CiphertextSize + b.CiphertextSize

/-- Modelled from the spec: the method `SharedKeySize()`, not under `src/`; following
section 4.2 of the spec, for a hybrid it is the fixed output length of the key-derivation
step. -/
def SharedKeySize : Scheme → Nat
  | algorithm _ z => z.sharedKey
  | hybrid _ _ _ n => n

end Scheme

end kem

/-! ## Package `hybrid`: the combinator -/

namespace hybrid

/-- Modelled from the spec: package `hybrid` is not under `src/`.  Section 4.2 of the spec
builds the composite of a classical scheme `a` and a post-quantum scheme `b`; its name is
derived from the names of the two constituents in the form of the example `"A+B"`, and
its shared secret has the fixed length `sharedKey`. -/
def combine (a b : kem.Scheme) (sharedKey : Nat) : kem.Scheme :=
  kem.Scheme.hybrid (a.Name ++ lit "+" ++ b.Name) a b sharedKey

end hybrid

/-! ## The algorithm packages imported by `schemes.go` -/

/-- Modelled from the spec: the algorithm packages (`hpke`, `kyber*`, `mceliece*`, and the
classical halves used by `hybrid`) are not under `src/`, and the spec leaves their
mathematics and parameters out of scope.  The byte lengths each package reports, and the
fixed shared-secret length of the hybrid combinator, are taken as parameters. -/
structure Imports where
  hpkeP256 : kem.Sizes
  hpkeP384 : kem.Sizes
  hpkeP521 : kem.Sizes
  hpkeX25519 : kem.Sizes
  hpkeX448 : kem.Sizes
  kyber512 : kem.Sizes
  kyber768 : kem.Sizes
  kyber1024 : kem.Sizes
  mceliece348864 : kem.Sizes
  mceliece348864f : kem.Sizes
  mceliece460896 : kem.Sizes
  mceliece460896f : kem.Sizes
  mceliece6688128 : kem.Sizes
  mceliece6688128f : kem.Sizes
  mceliece6960119 : kem.Sizes
  mceliece6960119f : kem.Sizes
  mceliece8192128 : kem.Sizes
  mceliece8192128f : kem.Sizes
  x25519 : kem.Sizes
  x448 : kem.Sizes
  hybridSharedKey : Nat

/-- Modelled from the spec: the `Name()` methods live in the algorithm packages, which are
not under `src/`.  The display names are those spelled in the package documentation of
`schemes.go` (the five HPKE names, `Kyber512`, `Kyber768`, `Kyber1024`); a package the
documentation does not mention is named by its package identifier. -/
def hpke.KEM_P256_HKDF_SHA256.Scheme (e : Imports) : kem.Scheme :=
  .algorithm (lit "HPKE_KEM_P256_HKDF_SHA256") e.hpkeP256

/-- Modelled from the spec: see `hpke.KEM_P256_HKDF_SHA256.Scheme`. -/
def hpke.KEM_P384_HKDF_SHA384.Scheme (e : Imports) : kem.Scheme :=
  .algorithm (lit "HPKE_KEM_P384_HKDF_SHA384") e.hpkeP384

/-- Modelled from the spec: see `hpke.KEM_P256_HKDF_SHA256.Scheme`. -/
def hpke.KEM_P521_HKDF_SHA512.Scheme (e : Imports) : kem.Scheme :=
  .algorithm (lit "HPKE_KEM_P521_HKDF_SHA512") e.hpkeP521

/-- Modelled from the spec: see `hpke.KEM_P256_HKDF_SHA256.Scheme`. -/
def hpke.KEM_X25519_HKDF_SHA256.Scheme (e : Imports) : kem.Scheme :=
  .algorithm (lit "HPKE_KEM_X25519_HKDF_SHA256") e.hpkeX25519

/-- Modelled from the spec: see `hpke.KEM_P256_HKDF_SHA256.Scheme`. -/
def hpke.KEM_X448_HKDF_SHA512.Scheme (e : Imports) : kem.Scheme :=
  .algorithm (lit "HPKE_KEM_X448_HKDF_SHA512") e.hpkeX448

/-- Modelled from the spec: see `hpke.KEM_P256_HKDF_SHA256.Scheme`. -/
def kyber512.Scheme (e : Imports) : kem.Scheme := .algorithm (lit "Kyber512") e.kyber512

/-- Modelled from the spec: see `hpke.KEM_P256_HKDF_SHA256.Scheme`. -/
def kyber768.Scheme (e : Imports) : kem.Scheme := .algorithm (lit "Kyber768") e.kyber768

/-- Modelled from the spec: see `hpke.KEM_P256_HKDF_SHA256.Scheme`. -/
def kyber1024.Scheme (e : Imports) : kem.Scheme := .algorithm (lit "Kyber1024") e.kyber1024

/-- Modelled from the spec: see `hpke.KEM_P256_HKDF_SHA256.Scheme`. -/
def mceliece348864.Scheme (e : Imports) : kem.Scheme :=
  .algorithm (lit "mceliece348864") e.mceliece348864

/-- Modelled from the spec: see `hpke.KEM_P256_HKDF_SHA256.Scheme`. -/
def mceliece348864f.Scheme (e : Imports) : kem.Scheme :=
  .algorithm (lit "mceliece348864f") e.mceliece348864f

/-- Modelled from the spec: see `hpke.KEM_P256_HKDF_SHA256.Scheme`. -/
def mceliece460896.Scheme (e : Imports) : kem.Scheme :=
  .algorithm (lit "mceliece460896") e.mceliece460896

/-- Modelled from the spec: see `hpke.KEM_P256_HKDF_SHA256.Scheme`. -/
def mceliece460896f.Scheme (e : Imports) : kem.Scheme :=
  .algorithm (lit "mceliece460896f") e.mceliece460896f

/-- Modelled from the spec: see `hpke.KEM_P256_HKDF_SHA256.Scheme`. -/
def mceliece6688128.Scheme (e : Imports) : kem.Scheme :=
  .algorithm (lit "mceliece6688128") e.mceliece6688128

/-- Modelled from the spec: see `hpke.KEM_P256_HKDF_SHA256.Scheme`. -/
def mceliece6688128f.Scheme (e : Imports) : kem.Scheme :=
  .algorithm (lit "mceliece6688128f") e.mceliece6688128f

/-- Modelled from the spec: see `hpke.KEM_P256_HKDF_SHA256.Scheme`. -/
def mceliece6960119.Scheme (e : Imports) : kem.Scheme :=
  .algorithm (lit "mceliece6960119") e.mceliece6960119

/-- Modelled from the spec: see `hpke.KEM_P256_HKDF_SHA256.Scheme`. -/
def mceliece6960119f.Scheme (e : Imports) : kem.Scheme :=
  .algorithm (lit "mceliece6960119f") e.mceliece6960119f

/-- Modelled from the spec: see `hpke.KEM_P256_HKDF_SHA256.Scheme`. -/
def mceliece8192128.Scheme (e : Imports) : kem.Scheme :=
  .algorithm (lit "mceliece8192128") e.mceliece8192128

/-- Modelled from the spec: see `hpke.KEM_P256_HKDF_SHA256.Scheme`. -/
def mceliece8192128f.Scheme (e : Imports) : kem.Scheme :=
  .algorithm (lit "mceliece8192128f") e.mceliece8192128f

/-- Modelled from the spec: the classical X25519 half of a hybrid is referenced directly by
package `hybrid`, which is not under `src/`; it is named after the function identifiers
`Kyber512X25519`, `Kyber768X25519` and `Mceliece8192128fX25519`. -/
def hybrid.x25519Kem (e : Imports) : kem.Scheme := .algorithm (lit "X25519") e.x25519

/-- Modelled from the spec: the classical X448 half of a hybrid, as `hybrid.x25519Kem`. -/
def hybrid.x448Kem (e : Imports) : kem.Scheme := .algorithm (lit "X448") e.x448

/-- Modelled from the spec: package `hybrid` is not under `src/`; the function identifier
names the two constituents, combined as in section 4.2 of the spec. -/
def hybrid.Kyber512X25519 (e : Imports) : kem.Scheme :=
  hybrid.combine (hybrid.x25519Kem e) (kyber512.Scheme e) e.hybridSharedKey

/-- Modelled from the spec: see `hybrid.Kyber512X25519`. -/
def hybrid.Kyber768X25519 (e : Imports) : kem.Scheme :=
  hybrid.combine (hybrid.x25519Kem e) (kyber768.Scheme e) e.hybridSharedKey

/-- Modelled from the spec: see `hybrid.Kyber512X25519`. -/
def hybrid.Kyber768X448 (e : Imports) : kem.Scheme :=
  hybrid.combine (hybrid.x448Kem e) (kyber768.Scheme e) e.hybridSharedKey

/-- Modelled from the spec: see `hybrid.Kyber512X25519`. -/
def hybrid.Kyber1024X448 (e : Imports) : kem.Scheme :=
  hybrid.combine (hybrid.x448Kem e) (kyber1024.Scheme e) e.hybridSharedKey

/-- Modelled from the spec: see `hybrid.Kyber512X25519`. -/
def hybrid.Mceliece8192128fX25519 (e : Imports) : kem.Scheme :=
  hybrid.combine (hybrid.x25519Kem e) (mceliece8192128f.Scheme e) e.hybridSharedKey

/-! ## Package `schemes` -/

namespace schemes

/-- The package-level array `allSchemes`: the 23 registered schemes in listing order. -/
def allSchemes (e : Imports) : List kem.Scheme :=
  [ hpke.KEM_P256_HKDF_SHA256.Scheme e,
    hpke.KEM_P384_HKDF_SHA384.Scheme e,
    hpke.KEM_P521_HKDF_SHA512.Scheme e,
    hpke.KEM_X25519_HKDF_SHA256.Scheme e,
    hpke.KEM_X448_HKDF_SHA512.Scheme e,
    kyber512.Scheme e,
    kyber768.Scheme e,
    kyber1024.Scheme e,
    mceliece348864.Scheme e,
    mceliece348864f.Scheme e,
    mceliece460896.Scheme e,
    mceliece460896f.Scheme e,
    mceliece6688128.Scheme e,
    mceliece6688128f.Scheme e,
    mceliece6960119.Scheme e,
    mceliece6960119f.Scheme e,
    mceliece8192128.Scheme e,
    mceliece8192128f.Scheme e,
    hybrid.Kyber512X25519 e,
    hybrid.Kyber768X25519 e,
    hybrid.Kyber768X448 e,
    hybrid.Kyber1024X448 e,
    hybrid.Mceliece8192128fX25519 e ]

/-- The package-level variables of `schemes.go`: the array `allSchemes` and the map
`allSchemeNames`. -/
structure Registry where
  allSchemes : List kem.Scheme
  allSchemeNames : GoMap kem.Scheme
deriving DecidableEq, Repr

/-- The function `init`: a fresh map, then one assignment
`allSchemeNames[strings.ToLower(scheme.Name())] = scheme` per element of `allSchemes`, in
order. -/
def init (unicodeLower : GoString → GoString) (st : Registry) : Registry :=
  { st with
    allSchemeNames :=
      st.allSchemes.foldl
        (fun m scheme => m.set (strings.ToLower unicodeLower scheme.Name) scheme)
        GoMap.make }

/-- Package initialization over a registration list: the variable initializers (the array
gets its elements, the map variable is `nil`), then `init`. -/
def load (unicodeLower : GoString → GoString) (list : List kem.Scheme) : Registry :=
  init unicodeLower { allSchemes := list, allSchemeNames := [] }

/-- The function `ByName`: `allSchemeNames[strings.ToLower(name)]`, `none` standing for
the `nil` interface value. -/
def ByName (unicodeLower : GoString → GoString) (st : Registry) (name : GoString) :
    Option kem.Scheme :=
  st.allSchemeNames.get (strings.ToLower unicodeLower name)

/-- The slice expression `a[lo:hi]`, as the sequence of its elements. -/
def slice (a : List kem.Scheme) (lo hi : Nat) : List kem.Scheme := (a.take hi).drop lo

/-- The function `All`: `a := allSchemes` copies the array into a local, and `a[:]`, that
is `a[0:len(a)]`, slices the whole copy. -/
def All (st : Registry) : List kem.Scheme :=
  let a := st.allSchemes
  slice a 0 a.length

/-- A call of one of the two exported functions. -/
inductive Call where
  | byName (name : GoString)
  | all
deriving DecidableEq, Repr

/-- What a call returns. -/
inductive Reply where
  | scheme (s : Option kem.Scheme)
  | slice (a : List kem.Scheme)
deriving DecidableEq, Repr

/-- One call against the package state: the value returned and the package state after
the call.  Neither function body assigns to a package-level variable. -/
def exec (unicodeLower : GoString → GoString) (st : Registry) : Call → Reply × Registry
  | .byName name => (.scheme (ByName unicodeLower st name), st)
  | .all => (.slice (All st), st)

/-- A finite sequence of calls, left to right; the package state after the last one. -/
def run (unicodeLower : GoString → GoString) (st : Registry) : List Call → Registry
  | [] => st
  | c :: cs => run unicodeLower (exec unicodeLower st c).2 cs

/-- The catalog key of a scheme: its lower-cased name. -/
def key (unicodeLower : GoString → GoString) (s : kem.Scheme) : GoString :=
  strings.ToLower unicodeLower s.Name

/-- The last element of a registration list, in registration order, whose lower-cased
name is `k`. -/
def lastWithKey (unicodeLower : GoString → GoString) (list : List kem.Scheme)
    (k : GoString) : Option kem.Scheme :=
  list.reverse.find? (fun s => decide (key unicodeLower s = k))

/-! ### Arrays, slices and assignment through a slice

`All` returns a slice, and a caller may assign through it.  To follow such an assignment
the arrays are given addresses: the package-level array `allSchemes` has its own address,
and every array copied into a local variable whose slice leaves the function gets a
fresh one. -/

/-- The address of an array: the package-level array `allSchemes`, or the array of a
local variable, numbered in allocation order. -/
inductive Addr where
  | allSchemes
  | localArray (k : Nat)
deriving DecidableEq, Repr

/-- A slice value `array[low:high]`: the array it points into and its bounds. -/
structure Slice where
  array : Addr
  low : Nat
  high : Nat
deriving DecidableEq, Repr

/-- The memory a program using the package sees: the package-level variables and the
arrays of the local variables that slices point into. -/
structure Memory where
  pkg : Registry
  locals : List (List kem.Scheme)
deriving DecidableEq, Repr

/-- The array stored at an address. -/
def Memory.arrayAt (m : Memory) : Addr → List kem.Scheme
  | Addr.allSchemes => m.pkg.allSchemes
  | Addr.localArray k => m.locals.getD k []

/-- The elements a slice denotes in a memory. -/
def Slice.elems (m : Memory) (s : Slice) : List kem.Scheme :=
  slice (m.arrayAt s.array) s.low s.high

/-- The function `All`, with its memory effect: `a := allSchemes` copies the array, by
value, into the new local array `a`, and `a[:]` is the slice `a[0:len(a)]` over that
copy.  The package-level variables are not assigned. -/
def All.call (m : Memory) : Slice × Memory :=
  let a := m.pkg.allSchemes
  (⟨Addr.localArray m.locals.length, 0, a.length⟩, { m with locals := m.locals ++ [a] })

/-- The assignment `s[i] = x` through a slice: it writes element `low + i` of the array
the slice points into; `none` is the index-out-of-range panic for `i >= len(s)`. -/
def Slice.assign (m : Memory) (s : Slice) (i : Nat) (x : kem.Scheme) : Option Memory :=
  if s.low + i < s.high then
    match s.array with
    | Addr.allSchemes =>
      some { m with pkg := { m.pkg with allSchemes := m.pkg.allSchemes.set (s.low + i) x } }
    | Addr.localArray k =>
      some { m with locals := m.locals.set k ((m.locals.getD k []).set (s.low + i) x) }
  else none

end schemes

/-! ## Values to evaluate the definitions on -/

/-- A stand-in for the Unicode case tables in evaluations: a string with a non-ASCII byte
is left as it is. -/
def identityCase (s : GoString) : GoString := s

/-- The scheme `"Alpha"` of the scenario in section 8 of the spec. -/
def alpha : kem.Scheme := .algorithm (lit "Alpha") ⟨32, 32, 32, 32⟩

/-- The scheme `"Beta"` of the scenario in section 8 of the spec. -/
def beta : kem.Scheme := .algorithm (lit "Beta") ⟨64, 64, 96, 32⟩

/-- A second scheme whose name differs from that of `alpha` in letter case only. -/
def alphaUpper : kem.Scheme := .algorithm (lit "ALPHA") ⟨64, 64, 96, 32⟩

/-- An environment of byte lengths, to evaluate the register on. -/
def sampleImports : Imports :=
  let z : kem.Sizes := ⟨32, 32, 32, 32⟩
  ⟨z, z, z, z, z, z, z, z, z, z, z, z, z, z, z, z, z, z, z, z, 32⟩

/-! ## Bytes and case mapping -/

namespace strings

set_option maxRecDepth 100000

theorem lowerByte_lowerByte : ∀ c : GoByte, lowerByte (lowerByte c) = lowerByte c := by
  decide

theorem lowerByte_upperByte : ∀ c : GoByte, lowerByte (upperByte c) = lowerByte c := by
  decide

theorem lowerByte_lt : ∀ c : GoByte, c.val < 128 → (lowerByte c).val < 128 := by
  decide

theorem upperByte_lt : ∀ c : GoByte, c.val < 128 → (upperByte c).val < 128 := by
  decide

theorem lowerByte_of_not_upper : ∀ c : GoByte, isUpperByte c = false → lowerByte c = c := by
  decide

theorem upperByte_of_not_lower : ∀ c : GoByte, isLowerByte c = false → upperByte c = c := by
  decide

theorem lowerASCII_of_no_upper (s : GoString) (h : s.any isUpperByte = false) :
    lowerASCII s = s := by
  induction s with
  | nil => rfl
  | cons c cs ih =>
    simp only [List.any_cons, Bool.or_eq_false_iff] at h
    simp only [lowerASCII, List.map_cons] at ih ⊢
    rw [lowerByte_of_not_upper c h.1, ih h.2]

theorem upperASCII_of_no_lower (s : GoString) (h : s.any isLowerByte = false) :
    upperASCII s = s := by
  induction s with
  | nil => rfl
  | cons c cs ih =>
    simp only [List.any_cons, Bool.or_eq_false_iff] at h
    simp only [upperASCII, List.map_cons] at ih ⊢
    rw [upperByte_of_not_lower c h.1, ih h.2]

/-- On a pure-ASCII string `ToLower` is the bytewise map, whatever the Unicode tables. -/
theorem ToLower_of_isASCII (uL : GoString → GoString) (s : GoString)
    (h : isASCII s = true) : ToLower uL s = lowerASCII s := by
  unfold ToLower
  rw [if_pos h]
  by_cases hu : s.any isUpperByte = true
  · simp [hu]
  · have hu2 : s.any isUpperByte = false := by simpa using hu
    rw [lowerASCII_of_no_upper s hu2]
    simp [hu2]

/-- On a pure-ASCII string `ToUpper` is the bytewise map, whatever the Unicode tables. -/
theorem ToUpper_of_isASCII (uU : GoString → GoString) (s : GoString)
    (h : isASCII s = true) : ToUpper uU s = upperASCII s := by
  unfold ToUpper
  rw [if_pos h]
  by_cases hu : s.any isLowerByte = true
  · simp [hu]
  · have hu2 : s.any isLowerByte = false := by simpa using hu
    rw [upperASCII_of_no_lower s hu2]
    simp [hu2]

theorem isASCII_lowerASCII (s : GoString) (h : isASCII s = true) :
    isASCII (lowerASCII s) = true := by
  simp only [isASCII, lowerASCII, List.all_eq_true, decide_eq_true_eq, List.mem_map] at h ⊢
  rintro c ⟨d, hd, rfl⟩
  exact lowerByte_lt d (h d hd)

theorem isASCII_upperASCII (s : GoString) (h : isASCII s = true) :
    isASCII (upperASCII s) = true := by
  simp only [isASCII, upperASCII, List.all_eq_true, decide_eq_true_eq, List.mem_map] at h ⊢
  rintro c ⟨d, hd, rfl⟩
  exact upperByte_lt d (h d hd)

theorem lowerASCII_lowerASCII (s : GoString) : lowerASCII (lowerASCII s) = lowerASCII s := by
  simp [lowerASCII, List.map_map, Function.comp_def, lowerByte_lowerByte]

theorem lowerASCII_upperASCII (s : GoString) : lowerASCII (upperASCII s) = lowerASCII s := by
  simp [lowerASCII, upperASCII, List.map_map, Function.comp_def, lowerByte_upperByte]

/-- Lower-casing a pure-ASCII string twice is lower-casing it once. -/
theorem ToLower_ToLower_of_isASCII (uL : GoString → GoString) (s : GoString)
    (h : isASCII s = true) : ToLower uL (ToLower uL s) = ToLower uL s := by
  rw [ToLower_of_isASCII uL s h, ToLower_of_isASCII uL _ (isASCII_lowerASCII s h),
    lowerASCII_lowerASCII]

/-- Lower-casing the upper-cased form of a pure-ASCII string is lower-casing the string. -/
theorem ToLower_ToUpper_of_isASCII (uL uU : GoString → GoString) (s : GoString)
    (h : isASCII s = true) : ToLower uL (ToUpper uU s) = ToLower uL s := by
  rw [ToUpper_of_isASCII uU s h, ToLower_of_isASCII uL _ (isASCII_upperASCII s h),
    lowerASCII_upperASCII, ToLower_of_isASCII uL s h]

end strings

/-! ## Map lemmas -/

namespace GoMap

theorem get_set {V : Type} (m : GoMap V) (k k0 : GoString) (v : V) :
    (m.set k v).get k0 = if k = k0 then some v else m.get k0 := by
  induction m with
  | nil => simp [set, get]
  | cons p rest ih =>
    obtain ⟨k1, v1⟩ := p
    by_cases h1 : k1 = k
    · subst h1
      by_cases h2 : k1 = k0 <;> simp [set, get, h2]
    · by_cases h2 : k = k0
      · subst h2
        simp [set, get, h1, ih]
      · by_cases h3 : k1 = k0
        · subst h3
          simp [set, get, h1, h2]
        · simp [set, get, h1, h2, h3, ih]

theorem keys_set_of_not_mem {V : Type} (m : GoMap V) (k : GoString) (v : V)
    (h : k ∉ m.keys) : (m.set k v).keys = m.keys ++ [k] := by
  induction m with
  | nil => simp [set, keys]
  | cons p rest ih =>
    obtain ⟨k1, v1⟩ := p
    simp only [keys, List.map_cons, List.mem_cons, not_or] at h ih ⊢
    have h1 : ¬ k1 = k := fun e => h.1 e.symm
    simp [set, h1, ih h.2]

theorem keys_set_of_mem {V : Type} (m : GoMap V) (k : GoString) (v : V)
    (h : k ∈ m.keys) : (m.set k v).keys = m.keys := by
  induction m with
  | nil => simp [keys] at h
  | cons p rest ih =>
    obtain ⟨k1, v1⟩ := p
    by_cases h1 : k1 = k
    · subst h1
      simp [set, keys]
    · simp only [keys, List.map_cons, List.mem_cons] at h ih ⊢
      have h2 : k ∈ List.map Prod.fst rest := by
        rcases h with h | h
        · exact absurd h.symm h1
        · exact h
      simp [set, h1, ih h2]

end GoMap

/-! ## The catalog built by `init` -/

namespace schemes

theorem foldl_get (uL : GoString → GoString) (l : List kem.Scheme) (k : GoString) :
    ∀ m : GoMap kem.Scheme,
      (l.foldl (fun m scheme => m.set (strings.ToLower uL scheme.Name) scheme) m).get k
        = (lastWithKey uL l k).or (m.get k) := by
  induction l with
  | nil => intro m; simp [lastWithKey]
  | cons s l ih =>
    intro m
    rw [List.foldl_cons, ih, GoMap.get_set]
    simp only [lastWithKey, List.reverse_cons, List.find?_append, List.find?_cons,
      List.find?_nil, key]
    cases hf : List.find? (fun s => decide (strings.ToLower uL s.Name = k)) l.reverse with
    | some t => simp
    | none =>
      by_cases hk : strings.ToLower uL s.Name = k <;> simp [hk]

theorem foldl_keys (uL : GoString → GoString) (l : List kem.Scheme) :
    ∀ m : GoMap kem.Scheme, (m.keys ++ l.map (key uL)).Nodup →
      (l.foldl (fun m scheme => m.set (strings.ToLower uL scheme.Name) scheme) m).keys
        = m.keys ++ l.map (key uL) := by
  induction l with
  | nil => intro m _; simp
  | cons s l ih =>
    intro m hnd
    have hs : key uL s ∉ m.keys := by
      intro hmem
      rw [List.map_cons] at hnd
      have := (List.nodup_cons.1 (List.nodup_middle.1 hnd)).1
      exact this (List.mem_append_left _ hmem)
    have hk : (m.set (strings.ToLower uL s.Name) s).keys = m.keys ++ [key uL s] :=
      GoMap.keys_set_of_not_mem m _ s hs
    rw [List.foldl_cons, ih, hk]
    · simp
    · rw [hk]; simpa using hnd

/-- What `ByName` finds in a freshly initialized register: the last registered scheme
with the requested lower-cased name. -/
theorem ByName_load (uL : GoString → GoString) (l : List kem.Scheme) (n : GoString) :
    ByName uL (load uL l) n = lastWithKey uL l (strings.ToLower uL n) := by
  simp [ByName, load, init, foldl_get, GoMap.make, GoMap.get]

/-- With pairwise distinct lower-cased names, the catalog has one key per scheme, in
registration order. -/
theorem keys_load (uL : GoString → GoString) (l : List kem.Scheme)
    (h : (l.map (key uL)).Nodup) : (load uL l).allSchemeNames.keys = l.map (key uL) := by
  have := foldl_keys uL l GoMap.make (by simpa [GoMap.make, GoMap.keys] using h)
  simpa [load, init, GoMap.make, GoMap.keys] using this

theorem All_eq (st : Registry) : All st = st.allSchemes := by
  simp [All, slice]

theorem All_load (uL : GoString → GoString) (l : List kem.Scheme) :
    All (load uL l) = l := by
  simp [All_eq, load, init]

theorem lastWithKey_some_iff (uL : GoString → GoString) (l : List kem.Scheme)
    (k : GoString) (t : kem.Scheme) :
    lastWithKey uL l k = some t ↔
      key uL t = k ∧ ∃ pre post, l = pre ++ t :: post ∧ ∀ s ∈ post, key uL s ≠ k := by
  unfold lastWithKey
  rw [List.find?_eq_some]
  constructor
  · rintro ⟨h1, as, bs, h2, h3⟩
    refine ⟨by simpa using h1, bs.reverse, as.reverse, ?_, ?_⟩
    · have := congrArg List.reverse h2
      simpa using this
    · intro s hs
      have := h3 s (by simpa using hs)
      simpa using this
  · rintro ⟨h1, pre, post, h2, h3⟩
    refine ⟨by simpa using h1, post.reverse, pre.reverse, ?_, ?_⟩
    · rw [h2]; simp
    · intro s hs
      have := h3 s (by simpa using hs)
      simpa using this

theorem lastWithKey_eq_none_iff (uL : GoString → GoString) (l : List kem.Scheme)
    (k : GoString) : lastWithKey uL l k = none ↔ ∀ s ∈ l, key uL s ≠ k := by
  simp [lastWithKey]

end schemes

/-! ## Lookups in a freshly initialized register -/

namespace schemes

theorem lastWithKey_of_mem (uL : GoString → GoString) (l : List kem.Scheme)
    (s : kem.Scheme) (hs : s ∈ l) :
    ∃ t, lastWithKey uL l (key uL s) = some t ∧ key uL t = key uL s ∧ t ∈ l := by
  cases h : lastWithKey uL l (key uL s) with
  | none =>
    exact absurd rfl ((lastWithKey_eq_none_iff uL l (key uL s)).1 h s hs)
  | some t =>
    refine ⟨t, rfl, ?_, ?_⟩
    · exact ((lastWithKey_some_iff uL l (key uL s) t).1 h).1
    · obtain ⟨_, pre, post, hl, _⟩ := (lastWithKey_some_iff uL l (key uL s) t).1 h
      rw [hl]; simp

theorem lastWithKey_of_mem_nodup (uL : GoString → GoString) (l : List kem.Scheme)
    (hnd : (l.map (key uL)).Nodup) (s : kem.Scheme) (hs : s ∈ l) :
    lastWithKey uL l (key uL s) = some s := by
  obtain ⟨pre, post, hl⟩ := List.append_of_mem hs
  refine (lastWithKey_some_iff uL l (key uL s) s).2 ⟨rfl, pre, post, hl, ?_⟩
  intro t ht hkey
  rw [hl, List.map_append, List.map_cons] at hnd
  have h1 := (List.nodup_cons.1 (List.nodup_middle.1 hnd)).1
  exact h1 (List.mem_append_right _ (hkey ▸ List.mem_map_of_mem (key uL) ht))

/-- The lower-cased names of the 23 registered schemes do not depend on the byte lengths
the packages report, nor on the Unicode case tables: every name is pure ASCII. -/
theorem keys_allSchemes (uL : GoString → GoString) (e : Imports) :
    (allSchemes e).map (key uL) = (allSchemes sampleImports).map (key identityCase) := rfl

theorem names_allSchemes (e : Imports) :
    (allSchemes e).map kem.Scheme.Name = (allSchemes sampleImports).map kem.Scheme.Name :=
  rfl

theorem nodup_keys_sample :
    ((allSchemes sampleImports).map (key identityCase)).Nodup := by decide

theorem nodup_keys_allSchemes (uL : GoString → GoString) (e : Imports) :
    ((allSchemes e).map (key uL)).Nodup := by
  rw [keys_allSchemes]; exact nodup_keys_sample

end schemes

namespace schemes

theorem ToLower_eq_of_ascii (uL : GoString → GoString) (a b : GoString)
    (ha : strings.isASCII a = true) (hb : strings.isASCII b = true)
    (h : strings.lowerASCII a = strings.lowerASCII b) :
    strings.ToLower uL a = strings.ToLower uL b := by
  rw [strings.ToLower_of_isASCII uL a ha, strings.ToLower_of_isASCII uL b hb, h]

/-- In the register of `schemes.go`, a name whose lower-cased form is the key of a
registered scheme resolves to that scheme. -/
theorem ByName_of_key (uL : GoString → GoString) (e : Imports) (s : kem.Scheme)
    (hs : s ∈ allSchemes e) (n : GoString) (hn : strings.ToLower uL n = key uL s) :
    ByName uL (load uL (allSchemes e)) n = some s := by
  rw [ByName_load, hn]
  exact lastWithKey_of_mem_nodup uL _ (nodup_keys_allSchemes uL e) s hs

theorem run_eq (uL : GoString → GoString) (st : Registry) (calls : List Call) :
    run uL st calls = st := by
  induction calls with
  | nil => rfl
  | cons c cs ih => cases c <;> simpa [run, exec] using ih

/-! ## The claims -/

/-- C1: `ByName` is case-insensitive.  For every pure-ASCII name `n`, `ByName` returns for
`strings.ToLower(n)` and for `strings.ToUpper(n)` what it returns for `n`; for any two
strings with the same `strings.ToLower` it returns the same result; and in the register
of `schemes.go`, `"KYBER512"` and `"kyber512"` both resolve to the Kyber512 scheme. -/
theorem ByName_case_insensitive (uL uU : GoString → GoString) (st : Registry) :
    (∀ n, strings.isASCII n = true →
        ByName uL st (strings.ToLower uL n) = ByName uL st n ∧
        ByName uL st (strings.ToUpper uU n) = ByName uL st n) ∧
    (∀ a b, strings.ToLower uL a = strings.ToLower uL b →
        ByName uL st a = ByName uL st b) ∧
    (∀ e, ByName uL (load uL (allSchemes e)) (lit "KYBER512")
            = ByName uL (load uL (allSchemes e)) (lit "kyber512") ∧
          ByName uL (load uL (allSchemes e)) (lit "kyber512") = some (kyber512.Scheme e)) := by
  refine ⟨?_, ?_, ?_⟩
  · intro n hn
    constructor
    · simp only [ByName]
      rw [strings.ToLower_ToLower_of_isASCII uL n hn]
    · simp only [ByName]
      rw [strings.ToLower_ToUpper_of_isASCII uL uU n hn]
  · intro a b h
    simp only [ByName]
    rw [h]
  · intro e
    have hmem : kyber512.Scheme e ∈ allSchemes e := by simp [allSchemes]
    have h1 : ByName uL (load uL (allSchemes e)) (lit "KYBER512")
        = some (kyber512.Scheme e) :=
      ByName_of_key uL e _ hmem _
        (ToLower_eq_of_ascii uL (lit "KYBER512") (lit "Kyber512")
          (by decide) (by decide) (by decide))
    have h2 : ByName uL (load uL (allSchemes e)) (lit "kyber512")
        = some (kyber512.Scheme e) :=
      ByName_of_key uL e _ hmem _
        (ToLower_eq_of_ascii uL (lit "kyber512") (lit "Kyber512")
          (by decide) (by decide) (by decide))
    exact ⟨h1.trans h2.symm, h2⟩

/-- C1, evaluated: in a register holding `"Alpha"` and `"Beta"`, the pure-ASCII name
`"aLpHa"`, its lower-cased form and its upper-cased form all resolve to `alpha`. -/
theorem ByName_case_insensitive_witness :
    strings.isASCII (lit "aLpHa") = true ∧
    ByName identityCase (load identityCase [alpha, beta])
        (strings.ToLower identityCase (lit "aLpHa"))
      = ByName identityCase (load identityCase [alpha, beta]) (lit "aLpHa") ∧
    ByName identityCase (load identityCase [alpha, beta])
        (strings.ToUpper identityCase (lit "aLpHa"))
      = ByName identityCase (load identityCase [alpha, beta]) (lit "aLpHa") ∧
    ByName identityCase (load identityCase [alpha, beta]) (lit "aLpHa") = some alpha :=
  ⟨by decide,
   ((ByName_case_insensitive identityCase identityCase
      (load identityCase [alpha, beta])).1 (lit "aLpHa") (by decide)).1,
   ((ByName_case_insensitive identityCase identityCase
      (load identityCase [alpha, beta])).1 (lit "aLpHa") (by decide)).2,
   by decide⟩

/-- C2: `ByName` on an unregistered name returns `nil`.  For every registration list and
every string `n` (any byte sequence, the empty string and invalid UTF-8 included) whose
`strings.ToLower` differs from the `strings.ToLower` of the name of every registered
scheme, `ByName(n)` is `nil`; and `ByName` returns a value on every input and in every
package state. -/
theorem ByName_unregistered (uL : GoString → GoString) (l : List kem.Scheme)
    (n : GoString)
    (h : ∀ s ∈ l, strings.ToLower uL n ≠ strings.ToLower uL s.Name) :
    ByName uL (load uL l) n = none ∧
    ∀ (st : Registry) (m : GoString), ∃ r, ByName uL st m = r := by
  refine ⟨?_, fun st m => ⟨_, rfl⟩⟩
  rw [ByName_load, lastWithKey_eq_none_iff]
  intro s hs hk
  exact h s hs hk.symm

/-- C2, evaluated: in the register of `schemes.go`, the two-byte string `ff fe`, which is
not valid UTF-8, is not found. -/
theorem ByName_unregistered_witness :
    (∀ s ∈ allSchemes sampleImports,
        strings.ToLower identityCase [255, 254] ≠ strings.ToLower identityCase s.Name) ∧
    ByName identityCase (load identityCase (allSchemes sampleImports)) [255, 254] = none :=
  ⟨by decide,
   (ByName_unregistered identityCase (allSchemes sampleImports) [255, 254] (by decide)).1⟩

/-- C3: `ByName` returns the scheme with the given name.  For every registration list and
every scheme `s` in `All()`, `ByName(s.Name())` is a scheme whose name equals that of `s`
after lower-casing; when the lower-cased names of the list are pairwise distinct it is
`s` itself. -/
theorem ByName_registered (uL : GoString → GoString) (l : List kem.Scheme)
    (s : kem.Scheme) (hs : s ∈ All (load uL l)) :
    (∃ t, ByName uL (load uL l) s.Name = some t ∧
        strings.ToLower uL t.Name = strings.ToLower uL s.Name) ∧
    ((l.map (fun x => strings.ToLower uL x.Name)).Nodup →
        ByName uL (load uL l) s.Name = some s) := by
  rw [All_load] at hs
  refine ⟨?_, ?_⟩
  · obtain ⟨t, h1, h2, _⟩ := lastWithKey_of_mem uL l s hs
    exact ⟨t, by rw [ByName_load]; exact h1, h2⟩
  · intro hnd
    rw [ByName_load]
    exact lastWithKey_of_mem_nodup uL l hnd s hs

/-- C3, evaluated: in a register holding `"Alpha"` and `"Beta"`, `ByName("Beta")` is the
scheme `beta`. -/
theorem ByName_registered_witness :
    beta ∈ All (load identityCase [alpha, beta]) ∧
    ([alpha, beta].map (fun x => strings.ToLower identityCase x.Name)).Nodup ∧
    ByName identityCase (load identityCase [alpha, beta]) beta.Name = some beta :=
  ⟨by decide, by decide,
   (ByName_registered identityCase [alpha, beta] beta (by decide)).2 (by decide)⟩

end schemes

namespace schemes

/-- C4: `All()` returns every registered scheme in the fixed registration order, stable
across calls.  In the register of `schemes.go` the result of `All()` is the `allSchemes`
list itself, entry for entry: 23 of them, the first the HPKE P-256 scheme and the last the
McEliece8192128f/X25519 hybrid; and after any finite sequence of `ByName` and `All`
calls, `All()` returns the same sequence again. -/
theorem All_registration_order (uL : GoString → GoString) (e : Imports) :
    All (load uL (allSchemes e)) = allSchemes e ∧
    (All (load uL (allSchemes e))).length = 23 ∧
    (All (load uL (allSchemes e))).head? = some (hpke.KEM_P256_HKDF_SHA256.Scheme e) ∧
    (All (load uL (allSchemes e))).getLast? = some (hybrid.Mceliece8192128fX25519 e) ∧
    (∀ calls : List Call,
        All (run uL (load uL (allSchemes e)) calls) = All (load uL (allSchemes e))) := by
  refine ⟨All_load uL _, ?_, ?_, ?_, ?_⟩
  · rw [All_load]; rfl
  · rw [All_load]; rfl
  · rw [All_load]; rfl
  · intro calls; rw [run_eq]

/-- C6, as stated, fails: with `"Alpha"` and `"ALPHA"` registered, whose names are equal
after lower-casing, `init` does produce a catalog; it has the single key `"alpha"`, bound
to the later scheme, so the entry of the earlier scheme was replaced. -/
theorem init_duplicate_overwrites :
    strings.ToLower identityCase alpha.Name = strings.ToLower identityCase alphaUpper.Name ∧
    alpha ≠ alphaUpper ∧
    (load identityCase [alpha, alphaUpper]).allSchemeNames = [(lit "alpha", alphaUpper)] ∧
    ByName identityCase (load identityCase [alpha, alphaUpper]) alpha.Name
      = some alphaUpper := by
  decide

/-- C6, amended: a duplicate normalized name is not an error.  `init` produces a catalog
for every registration list, and when two schemes have names equal after lower-casing,
the later one replaces the earlier one: with `b` the last scheme registered under that
lower-cased name, `ByName` of the name of the earlier scheme `a` returns `b`, while
`All()` still holds every entry. -/
theorem init_keeps_later (uL : GoString → GoString) (pre mid post : List kem.Scheme)
    (a b : kem.Scheme)
    (hab : strings.ToLower uL a.Name = strings.ToLower uL b.Name)
    (hpost : ∀ s ∈ post, strings.ToLower uL s.Name ≠ strings.ToLower uL b.Name) :
    ByName uL (load uL (pre ++ a :: mid ++ b :: post)) a.Name = some b ∧
    ByName uL (load uL (pre ++ a :: mid ++ b :: post)) b.Name = some b ∧
    All (load uL (pre ++ a :: mid ++ b :: post)) = pre ++ a :: mid ++ b :: post := by
  have hb : lastWithKey uL (pre ++ a :: mid ++ b :: post) (strings.ToLower uL b.Name)
      = some b :=
    (lastWithKey_some_iff uL _ _ b).2 ⟨rfl, pre ++ a :: mid, post, rfl, hpost⟩
  refine ⟨?_, ?_, All_load uL _⟩
  · rw [ByName_load, hab]; exact hb
  · rw [ByName_load]; exact hb

/-- C6 amended, evaluated: with `"Alpha"`, `"Beta"`, `"ALPHA"` registered in this order,
`ByName("Alpha")` is the scheme registered as `"ALPHA"`. -/
theorem init_keeps_later_witness :
    strings.ToLower identityCase alpha.Name = strings.ToLower identityCase alphaUpper.Name ∧
    ByName identityCase (load identityCase ([] ++ alpha :: [beta] ++ alphaUpper :: []))
      alpha.Name = some alphaUpper :=
  ⟨by decide,
   (init_keeps_later identityCase [] [beta] [] alpha alphaUpper (by decide)
      (by decide)).1⟩

end schemes

namespace schemes

theorem ByName_none_of_not_key (uL : GoString → GoString) (e : Imports) (n : GoString)
    (hn : strings.ToLower uL n ∉ (allSchemes sampleImports).map (key identityCase)) :
    ByName uL (load uL (allSchemes e)) n = none := by
  rw [ByName_load, lastWithKey_eq_none_iff]
  intro s hs hk
  apply hn
  rw [← keys_allSchemes uL e, ← hk]
  exact List.mem_map_of_mem (key uL) hs

/-- C7, on the code: the package documentation lists `FrodoKEM-640-SHAKE` under "Schemes
Implemented", but in the register of `schemes.go` `ByName("FrodoKEM-640-SHAKE")` is `nil`
and no element of `All()` has that name; the other eight documented names resolve to
their schemes. -/
theorem ByName_documented_names (uL : GoString → GoString) (e : Imports) :
    ByName uL (load uL (allSchemes e)) (lit "FrodoKEM-640-SHAKE") = none ∧
    lit "FrodoKEM-640-SHAKE" ∉ (All (load uL (allSchemes e))).map kem.Scheme.Name ∧
    ByName uL (load uL (allSchemes e)) (lit "HPKE_KEM_P256_HKDF_SHA256")
      = some (hpke.KEM_P256_HKDF_SHA256.Scheme e) ∧
    ByName uL (load uL (allSchemes e)) (lit "HPKE_KEM_P384_HKDF_SHA384")
      = some (hpke.KEM_P384_HKDF_SHA384.Scheme e) ∧
    ByName uL (load uL (allSchemes e)) (lit "HPKE_KEM_P521_HKDF_SHA512")
      = some (hpke.KEM_P521_HKDF_SHA512.Scheme e) ∧
    ByName uL (load uL (allSchemes e)) (lit "HPKE_KEM_X25519_HKDF_SHA256")
      = some (hpke.KEM_X25519_HKDF_SHA256.Scheme e) ∧
    ByName uL (load uL (allSchemes e)) (lit "HPKE_KEM_X448_HKDF_SHA512")
      = some (hpke.KEM_X448_HKDF_SHA512.Scheme e) ∧
    ByName uL (load uL (allSchemes e)) (lit "Kyber512") = some (kyber512.Scheme e) ∧
    ByName uL (load uL (allSchemes e)) (lit "Kyber768") = some (kyber768.Scheme e) ∧
    ByName uL (load uL (allSchemes e)) (lit "Kyber1024") = some (kyber1024.Scheme e) := by
  refine ⟨?_, ?_, ?_, ?_, ?_, ?_, ?_, ?_, ?_, ?_⟩
  · apply ByName_none_of_not_key
    rw [strings.ToLower_of_isASCII uL (lit "FrodoKEM-640-SHAKE") (by decide)]
    decide
  · rw [All_load, names_allSchemes]
    decide
  all_goals exact ByName_of_key uL e _ (by simp [allSchemes]) _ rfl

/-- C8: `ByName` and `All` are pure queries.  With the package variables as explicit
state, a call `ByName(n)` for any string `n`, found or not, and a call `All()` leave the
list and the map as they were, the keys of the map included; so after any finite
sequence of calls the state is the one the calls started from, and after
initialization it is the freshly initialized one. -/
theorem queries_leave_registry (uL : GoString → GoString) (st : Registry) :
    (∀ n : GoString, (exec uL st (Call.byName n)).2 = st) ∧
    (exec uL st Call.all).2 = st ∧
    (∀ n : GoString,
        (exec uL st (Call.byName n)).2.allSchemeNames.keys = st.allSchemeNames.keys) ∧
    (∀ calls : List Call, run uL st calls = st) ∧
    (∀ (l : List kem.Scheme) (calls : List Call),
        run uL (load uL l) calls = load uL l ∧
        (run uL (load uL l) calls).allSchemes = l) := by
  refine ⟨fun _ => rfl, rfl, fun _ => rfl, run_eq uL st, ?_⟩
  intro l calls
  rw [run_eq]
  exact ⟨rfl, rfl⟩

/-- C9: hybrid scheme size invariants.  A hybrid built from `A` and `B` has the public
key, private key and ciphertext sizes of `A` and `B` added up; the last five entries of
the registration list are such hybrids; and `A` with pk=32, sk=32, ct=32 and `B` with
pk=64, sk=64, ct=96 give a hybrid with pk=96, sk=96, ct=128. -/
theorem hybrid_sizes (e : Imports) :
    (∀ (A B : kem.Scheme) (n : Nat),
        (hybrid.combine A B n).PublicKeySize = A.PublicKeySize + B.PublicKeySize ∧
        (hybrid.combine A B n).PrivateKeySize = A.PrivateKeySize + B.PrivateKeySize ∧
        (hybrid.combine A B n).CiphertextSize = A.CiphertextSize + B.CiphertextSize) ∧
    (allSchemes e).drop 18 =
      [ hybrid.combine (hybrid.x25519Kem e) (kyber512.Scheme e) e.hybridSharedKey,
        hybrid.combine (hybrid.x25519Kem e) (kyber768.Scheme e) e.hybridSharedKey,
        hybrid.combine (hybrid.x448Kem e) (kyber768.Scheme e) e.hybridSharedKey,
        hybrid.combine (hybrid.x448Kem e) (kyber1024.Scheme e) e.hybridSharedKey,
        hybrid.combine (hybrid.x25519Kem e) (mceliece8192128f.Scheme e) e.hybridSharedKey ] ∧
    (hybrid.combine alpha beta 32).PublicKeySize = 96 ∧
    (hybrid.combine alpha beta 32).PrivateKeySize = 96 ∧
    (hybrid.combine alpha beta 32).CiphertextSize = 128 := by
  refine ⟨fun A B n => ⟨rfl, rfl, rfl⟩, rfl, rfl, rfl, rfl⟩

end schemes

/-! ## Slices handed out by `All` -/

namespace schemes

theorem slice_whole (a : List kem.Scheme) : slice a 0 a.length = a := by
  simp [slice]

theorem getD_append_last (L : List (List kem.Scheme)) (a : List kem.Scheme) :
    (L ++ [a]).getD L.length [] = a := by
  simp [List.getD_eq_getElem?_getD]

theorem getD_set_last (L : List (List kem.Scheme)) (a b : List kem.Scheme) :
    ((L ++ [a]).set L.length b).getD L.length [] = b := by
  simp [List.getD_eq_getElem?_getD, List.getElem?_set]

/-- The slice `All` returns denotes the registration list, and the package-level
variables are as before the call. -/
theorem All_call_elems (m : Memory) :
    Slice.elems (All.call m).2 (All.call m).1 = All m.pkg ∧ (All.call m).2.pkg = m.pkg := by
  refine ⟨?_, rfl⟩
  simp only [Slice.elems, All.call, Memory.arrayAt, getD_append_last, All]

/-- What an assignment through the slice returned by `All` does: in range, it replaces
one element of the local copy and nothing else. -/
theorem assign_All_call (m : Memory) (i : Nat) (x : kem.Scheme) :
    Slice.assign (All.call m).2 (All.call m).1 i x =
      if i < m.pkg.allSchemes.length then
        some { pkg := m.pkg,
               locals := (m.locals ++ [m.pkg.allSchemes]).set m.locals.length
                 (m.pkg.allSchemes.set i x) }
      else none := by
  simp only [Slice.assign, All.call, Nat.zero_add, getD_append_last]

end schemes

namespace schemes

/-- C11: `ByName` only ever returns registered schemes under the requested name.  For
every registration list and every string `n`, `ByName(n)` is either `nil` or an element
of `All()` whose name, lower-cased with `strings.ToLower`, equals `strings.ToLower(n)`. -/
theorem ByName_returns_registered (uL : GoString → GoString) (l : List kem.Scheme)
    (n : GoString) :
    ByName uL (load uL l) n = none ∨
    ∃ t, ByName uL (load uL l) n = some t ∧ t ∈ All (load uL l) ∧
      strings.ToLower uL t.Name = strings.ToLower uL n := by
  rw [ByName_load, All_load]
  cases h : lastWithKey uL l (strings.ToLower uL n) with
  | none => exact Or.inl rfl
  | some t =>
    obtain ⟨hk, pre, post, hl, _⟩ := (lastWithKey_some_iff uL l _ t).1 h
    refine Or.inr ⟨t, rfl, ?_, hk⟩
    rw [hl]; simp

/-- C12: when two entries of the registration list have names that are equal after
`strings.ToLower`, `init` keeps the later one.  For every registration list and every
name `n`, `ByName(n)` is `s` exactly when `s` has the lower-cased name of `n` and no
entry after `s` in the list has it; it is `nil` exactly when no entry has it; and
`All()` is the whole list, the replaced entries included. -/
theorem ByName_last_registered (uL : GoString → GoString) (l : List kem.Scheme)
    (n : GoString) :
    (∀ s, ByName uL (load uL l) n = some s ↔
        strings.ToLower uL s.Name = strings.ToLower uL n ∧
        ∃ pre post, l = pre ++ s :: post ∧
          ∀ t ∈ post, strings.ToLower uL t.Name ≠ strings.ToLower uL n) ∧
    (ByName uL (load uL l) n = none ↔
        ∀ t ∈ l, strings.ToLower uL t.Name ≠ strings.ToLower uL n) ∧
    All (load uL l) = l := by
  refine ⟨?_, ?_, All_load uL l⟩
  · intro s
    rw [ByName_load]
    exact lastWithKey_some_iff uL l _ s
  · rw [ByName_load]
    exact lastWithKey_eq_none_iff uL l _

/-- C12, evaluated: with `"Alpha"`, `"Beta"`, `"ALPHA"` registered in this order,
`ByName("alpha")` is the scheme registered last under that lower-cased name, and `All()`
still holds both. -/
theorem ByName_last_registered_witness :
    ByName identityCase (load identityCase [alpha, beta, alphaUpper]) (lit "alpha")
      = some alphaUpper ∧
    alpha ∈ All (load identityCase [alpha, beta, alphaUpper]) ∧
    alphaUpper ∈ All (load identityCase [alpha, beta, alphaUpper]) :=
  ⟨((ByName_last_registered identityCase [alpha, beta, alphaUpper] (lit "alpha")).1
      alphaUpper).2 ⟨by decide, [alpha, beta], [], rfl, by decide⟩,
   by decide, by decide⟩

/-- C13: `All()` hands out a fresh copy of the registration list.  In every memory, the
slice returned by `All()` points into a new local array, not into the package-level
array.  An assignment `s[i] = x` through it succeeds for `i` in range and panics
otherwise; when it succeeds it changes element `i` of that copy, and it leaves the
package-level variables, the result of a later `All()` and the result of `ByName` for
every name as they were. -/
theorem All_returns_fresh_copy (uL : GoString → GoString) (m : Memory) (i : Nat)
    (x : kem.Scheme) :
    (All.call m).1.array ≠ Addr.allSchemes ∧
    Slice.elems (All.call m).2 (All.call m).1 = All m.pkg ∧
    (i < (All m.pkg).length →
        ∃ m2, Slice.assign (All.call m).2 (All.call m).1 i x = some m2) ∧
    (¬ i < (All m.pkg).length →
        Slice.assign (All.call m).2 (All.call m).1 i x = none) ∧
    (∀ m2, Slice.assign (All.call m).2 (All.call m).1 i x = some m2 →
        m2.pkg = m.pkg ∧
        Slice.elems m2 (All.call m).1 = (All m.pkg).set i x ∧
        All m2.pkg = All m.pkg ∧
        Slice.elems (All.call m2).2 (All.call m2).1 = All m.pkg ∧
        ∀ n, ByName uL m2.pkg n = ByName uL m.pkg n) := by
  refine ⟨?_, (All_call_elems m).1, ?_, ?_, ?_⟩
  · simp [All.call]
  · intro hi
    rw [All_eq] at hi
    rw [assign_All_call, if_pos hi]
    exact ⟨_, rfl⟩
  · intro hi
    rw [All_eq] at hi
    rw [assign_All_call, if_neg hi]
  · intro m2 h
    rw [assign_All_call] at h
    by_cases hi : i < m.pkg.allSchemes.length
    · rw [if_pos hi] at h
      have hm := (Option.some.inj h).symm
      have hp : m2.pkg = m.pkg := by rw [hm]
      refine ⟨hp, ?_, ?_, ?_, ?_⟩
      · rw [hm]
        simp only [Slice.elems, All.call, Memory.arrayAt, getD_set_last, All_eq]
        have := slice_whole (m.pkg.allSchemes.set i x)
        simpa using this
      · rw [hp]
      · rw [(All_call_elems m2).1, hp]
      · intro n; rw [hp]
    · rw [if_neg hi] at h
      exact absurd h (by simp)

/-- C13, evaluated: in a register holding `"Alpha"` and `"Beta"`, overwriting element 0
of the slice returned by `All()` with another scheme succeeds, and afterwards `All()`
is still `"Alpha"`, `"Beta"` and `ByName("alpha")` is still `alpha`. -/
theorem All_returns_fresh_copy_witness :
    ∃ m2,
      Slice.assign (All.call ⟨load identityCase [alpha, beta], []⟩).2
        (All.call ⟨load identityCase [alpha, beta], []⟩).1 0 alphaUpper = some m2 ∧
      Slice.elems m2 (All.call ⟨load identityCase [alpha, beta], []⟩).1
        = [alphaUpper, beta] ∧
      All m2.pkg = [alpha, beta] ∧
      ByName identityCase m2.pkg (lit "alpha") = some alpha :=
  ⟨⟨load identityCase [alpha, beta], [[alphaUpper, beta]]⟩, by decide,
   ((All_returns_fresh_copy identityCase ⟨load identityCase [alpha, beta], []⟩ 0
      alphaUpper).2.2.2.2 ⟨load identityCase [alpha, beta], [[alphaUpper, beta]]⟩
      (by decide)).2.1,
   by decide, by decide⟩

end schemes
